import Mathlib

/-!
# Verification of the gemini-search multimodal PDF search engine

A shallow embedding, in Lean 4, of the core algorithms of the repository:

* `src/multimodal_search/search/rankers/rrf.py` — reciprocal rank fusion,
* `src/multimodal_search/search/engine.py` — the hybrid/keyword search coordinator,
* `src/multimodal_search/search/keyword_search.py` — keyword rows (modelled as inputs),
* `src/multimodal_search/indexer/processors/text_processor.py` — text chunking,
* `src/multimodal_search/indexer/pipeline.py` — the ingest pipeline (persistence
  order, duplicate handling, region rows) and its OCR queue consumer,
* `src/multimodal_search/utils/geometry.py` — bounding-box clamping,
* `src/multimodal_search/services/vertex_embedder.py` — embedding retry loops,
* `src/multimodal_search/core/vector_store.py` — the two vector-store backends,
* `src/multimodal_search/agent/chains.py` — chat-history loading.

Machine floats are modelled as rationals, Python strings as `List Char`,
Python insertion-ordered dicts as association lists (a fresh key is appended
at the end), and Python's stable `sorted` as the stable `List.mergeSort`.
-/

namespace GeminiSearch

/-! ## Python modelling helpers -/

/-- Python `sorted(xs, key=key, reverse=True)`: a *stable* sort that puts larger
keys first.  `List.mergeSort` is stable, so sorting by `key b ≤ key a` is an
exact model. -/
def pySortDesc {α : Type} (key : α → ℚ) (xs : List α) : List α :=
  xs.mergeSort (fun a b => decide (key b ≤ key a))

/-- Python `sorted(xs, key=key)` (ascending, stable). -/
def pySortAsc {α : Type} (key : α → ℚ) (xs : List α) : List α :=
  xs.mergeSort (fun a b => decide (key a ≤ key b))

/-- The whitespace characters stripped by Python's `str.strip()`. -/
def isPySpace (c : Char) : Bool :=
  c = ' ' || c = '\t' || c = '\n' || c = '\x0d' || c = '\x0b' || c = '\x0c'

/-- Python `s.strip()` on a string modelled as a `List Char`. -/
def pyStrip (s : List Char) : List Char :=
  ((s.dropWhile isPySpace).reverse.dropWhile isPySpace).reverse

/-- Python truthiness of `s.strip()` being empty: `not s.strip()`. -/
def pyBlank (s : List Char) : Bool :=
  pyStrip s = []

/-- Python `int(q)` on a float/rational: truncation toward zero. -/
def pyInt (q : ℚ) : ℤ :=
  if 0 ≤ q then ⌊q⌋ else ⌈q⌉

/-! ## `rrf.py` — reciprocal rank fusion -/

/-- `DEFAULT_K = 60` (rrf.py line 10). -/
def DEFAULT_K : ℚ := 60

/-- `rrf_scores[id_] = rrf_scores.get(id_, 0) + inc` (rrf.py line 25) on an
insertion-ordered dict modelled as an association list: an existing key keeps
its position, a new key is appended at the end. -/
def updScore : List (String × ℚ) → String → ℚ → List (String × ℚ)
  | [], i, inc => [(i, inc)]
  | (k, v) :: rest, i, inc =>
      if k = i then (k, v + inc) :: rest else (k, v) :: updScore rest i inc

/-- The inner loop `for rank, item in enumerate(lst)` of `rrf_merge`
(rrf.py lines 23-25); `rank` is the running 0-based enumeration index. -/
def rrfAddList (k : ℚ) : List (String × ℚ) → ℕ → List (String × ℚ) → List (String × ℚ)
  | m, _, [] => m
  | m, rank, item :: rest =>
      rrfAddList k (updScore m item.1 (1 / (k + rank + 1))) (rank + 1) rest

/-- The `rrf_scores` dict built by the outer loop of `rrf_merge`
(rrf.py lines 21-25). -/
def rrfScores (k : ℚ) (result_lists : List (List (String × ℚ))) : List (String × ℚ) :=
  result_lists.foldl (fun m lst => rrfAddList k m 0 lst) []

/-- `rrf_merge(result_lists, k)` (rrf.py lines 13-28): build the score dict,
then `sorted(rrf_scores.items(), key=lambda x: x[1], reverse=True)`. -/
def rrf_merge (result_lists : List (List (String × ℚ))) (k : ℚ) : List (String × ℚ) :=
  pySortDesc Prod.snd (rrfScores k result_lists)

/-- Dict lookup `m.get(i, 0)` on the association list. -/
def dictVal (m : List (String × ℚ)) (i : String) : ℚ :=
  ((m.find? (fun p => p.1 = i)).map Prod.snd).getD 0

/-- Sum of the contributions that one enumerated list makes to the RRF score of
`i` — one term `1/(k + rank + 1)` per occurrence of `i` (0-based `rank`). -/
def occSum (k : ℚ) : ℕ → List (String × ℚ) → String → ℚ
  | _, [], _ => 0
  | rank, item :: rest, i =>
      (if item.1 = i then 1 / (k + rank + 1) else 0) + occSum k (rank + 1) rest i

/-- From the spec of RRF fusion: the 1-based rank of id `i` in a ranked list. -/
def specRank (lst : List (String × ℚ)) (i : String) : ℕ :=
  (lst.map Prod.fst).indexOf i + 1

/-- From the spec of RRF fusion: "the sum over the lists containing it of
`1 / (k + rank)` with 1-based rank". -/
def rrfSpecScore (k : ℚ) (lists : List (List (String × ℚ))) (i : String) : ℚ :=
  (lists.map (fun lst =>
    if i ∈ lst.map Prod.fst then 1 / (k + specRank lst i) else 0)).sum

/-- Order of first appearance of the ids across the input lists (first list
first, then within each list in rank order). -/
def firstAppearanceOrder (lists : List (List (String × ℚ))) : List String :=
  ((lists.map (fun l => l.map Prod.fst)).flatten).foldl
    (fun acc i => if i ∈ acc then acc else acc ++ [i]) []

/-! ## `text_processor.py` — chunking -/

/-- `DEFAULT_CHUNK_SIZE = 512` (text_processor.py line 13). -/
def DEFAULT_CHUNK_SIZE : ℕ := 512

/-- `DEFAULT_CHUNK_OVERLAP = 64` (text_processor.py line 14). -/
def DEFAULT_CHUNK_OVERLAP : ℕ := 64

/-- The `while start < len(text)` loop of `chunk_text` (text_processor.py
lines 32-40): take `text[start:start+size]`, keep it unless blank, advance
`start` by `size - overlap`.  `fuel` bounds the iteration count; every run of
`chunk_text` supplies enough fuel (one unit per loop iteration suffices since
each iteration advances `start` by `size - overlap ≥ 1`). -/
def chunkLoop (size overlap : ℕ) (t : List Char) : ℕ → ℕ → List (List Char)
  | 0, _ => []
  | fuel + 1, start =>
      if start < t.length then
        let chunk := (t.drop start).take size
        let rest := chunkLoop size overlap t fuel (start + size - overlap)
        if pyBlank chunk then rest else chunk :: rest
      else []

/-- `chunk_text(text, chunk_size, overlap)` (text_processor.py lines 17-42). -/
def chunk_text (text : List Char) (size overlap : ℕ) : List (List Char) :=
  if pyBlank text then []
  else
    let t := pyStrip text
    if t.length ≤ size then [t]
    else chunkLoop size overlap t t.length 0

/-- `chunk_ocr_results(ocr_results, ...)` (text_processor.py lines 45-64):
per page, enumerate the chunks of the page text.
Input tuples are `(page_id, document_id, full_text)`; output tuples are
`(page_id, document_id, chunk_index, text)`. -/
def chunk_ocr_results (ocr_results : List (ℕ × ℕ × List Char)) (size overlap : ℕ) :
    List (ℕ × ℕ × ℕ × List Char) :=
  ocr_results.foldl
    (fun out r =>
      out ++ ((chunk_text r.2.2 size overlap).enum.map (fun c => (r.1, r.2.1, c.1, c.2))))
    []

/-- From the spec of chunking: the number of window starts `0, step, 2*step, …`
that are `< len` — `⌈len / step⌉`. -/
def windowCount (step len : ℕ) : ℕ :=
  (len + step - 1) / step

/-- From the spec of chunking: the fixed-stride windows
`t[i*step : i*step + size]` for `i < windowCount step |t|`, with the
all-whitespace windows dropped. -/
def chunkWindows (size step : ℕ) (t : List Char) : List (List Char) :=
  ((List.range (windowCount step t.length)).map
    (fun i => (t.drop (i * step)).take size)).filter (fun c => !pyBlank c)

/-! ## `geometry.py` and `image_processing.py` — box clamping and cropping -/

/-- `scale_box_to_pixels(y0, x0, y1, x1, img_height, img_width, normalized)`
(geometry.py lines 11-40): optional rescale from normalized coordinates,
`int(...)` truncation, then clamping `y0,x0` to `[0, dim-1]` and `y1,x1` to
`[0, dim]`.  Returns `(py0, px0, py1, px1)`. -/
def scale_box_to_pixels (y0 x0 y1 x1 : ℚ) (img_height img_width : ℤ)
    (normalized : Bool) : ℤ × ℤ × ℤ × ℤ :=
  let py0 := if normalized then pyInt (y0 * img_height) else pyInt y0
  let px0 := if normalized then pyInt (x0 * img_width) else pyInt x0
  let py1 := if normalized then pyInt (y1 * img_height) else pyInt y1
  let px1 := if normalized then pyInt (x1 * img_width) else pyInt x1
  (max 0 (min py0 (img_height - 1)),
   max 0 (min px0 (img_width - 1)),
   max 0 (min py1 img_height),
   max 0 (min px1 img_width))

/-- `box_to_pixels(box, img_height, img_width, normalized)` (geometry.py
lines 43-58): `none` models the `ValueError` for a box without exactly four
entries. -/
def box_to_pixels (box : List ℚ) (img_height img_width : ℤ) (normalized : Bool) :
    Option (ℤ × ℤ × ℤ × ℤ) :=
  if box.length = 4 then
    some (scale_box_to_pixels (box.getD 0 0) (box.getD 1 0) (box.getD 2 0) (box.getD 3 0)
      img_height img_width normalized)
  else none

/-- The rectangle actually cropped by `crop_image` (image_processing.py
lines 17-36), as `(left, upper, right, lower)` for `PIL.Image.crop`: the
clamped pixel box, or the 1×1 fallback `(0, 0, 1, 1)` when the clamped box is
degenerate.  `none` models the `ValueError` for a malformed box. -/
def cropRect (box : List ℚ) (img_height img_width : ℤ) (normalized : Bool) :
    Option (ℤ × ℤ × ℤ × ℤ) :=
  (box_to_pixels box img_height img_width normalized).map (fun p =>
    if p.1 ≥ p.2.2.1 ∨ p.2.1 ≥ p.2.2.2 then (0, 0, 1, 1)
    else (p.2.1, p.1, p.2.2.2, p.2.2.1))

/-! ## `vision_processor.py` — per-page detection output -/

/-- One item of `detect_regions` output (gemini_client.py lines 120-131):
a label and a `box_2d = [y0, x0, y1, x1]` list (length not validated by the
pydantic model, so it may be malformed). -/
structure RegionDet where
  label : String
  box_2d : List ℚ
deriving DecidableEq, Repr

/-- `process_page` (vision_processor.py lines 18-59) restricted to what flows
into the pipeline: each detected region is cropped (`crop_image` raises only
for a box without exactly four entries, which is skipped by the
`try/except`; any in-range or out-of-range 4-entry box crops without error,
degenerate clamped boxes falling back to a 1×1 crop) and `(label, box_2d)`
is passed through *with the raw box untouched*. -/
def process_page (dets : List RegionDet) : List (String × List ℚ) :=
  dets.filterMap (fun r =>
    if r.box_2d.length = 4 then some (r.label, r.box_2d) else none)

/-! ## `pipeline.py` — the ingest pipeline -/

/-- Deterministic vector identifiers:
`chunk_{document_id}_{page_id}_{chunk_index}` (pipeline.py line 221) and
`region_{document_id}_{region_id}` (pipeline.py line 264), kept structured so
that distinctness is by construction. -/
inductive Vid where
  | chunk (document_id page_id chunk_index : ℕ)
  | region (document_id region_id : ℕ)
deriving DecidableEq, Repr

/-- Persistence events of one pipeline run, in program order:
`rowChunk v` = `session.add(TextChunk(...)); session.flush()`,
`rowRegion v` = `session.add(Region(...)); session.flush()`,
`vecAdd v` = the vector with id `v` is part of a `vec_store.add` call. -/
inductive Ev where
  | rowChunk (v : Vid)
  | rowRegion (v : Vid)
  | vecAdd (v : Vid)
deriving DecidableEq, Repr

/-- A `TextChunk` row as inserted by the pipeline (pipeline.py lines 226-235). -/
structure ChunkRow where
  page_id : ℕ
  document_id : ℕ
  chunk_index : ℕ
  text : List Char
  vector_id : Vid
deriving DecidableEq, Repr

/-- A `Region` row as inserted by the pipeline (pipeline.py lines 249-265):
the four `box_*` columns receive the *raw* `box_2d` values. -/
structure RegionRow where
  page_id : ℕ
  document_id : ℕ
  label : String
  box_y0 : ℚ
  box_x0 : ℚ
  box_y1 : ℚ
  box_x1 : ℚ
  vector_id : Vid
deriving DecidableEq, Repr

/-- Rendered page data: `(page_index, png_bytes, {page_num, width, height})`
from `render_pdf_pages`, keeping the fields the model needs. -/
structure PageData where
  page_num : ℕ
  width : ℤ
  height : ℤ
deriving DecidableEq, Repr

/-- The content-store and vector-store state the pipeline mutates.
`docs` holds `(id, file_hash)`; `pages` holds `(id, document_id, page_num)`;
`vecs` is the set of registered vector ids; the `next*` counters model the
monotonic autoincrement ids. -/
structure PipeState where
  docs : List (ℕ × String)
  pages : List (ℕ × ℕ × ℕ)
  chunks : List ChunkRow
  regions : List RegionRow
  vecs : List Vid
  nextDoc : ℕ
  nextPage : ℕ
  nextRegion : ℕ
deriving DecidableEq, Repr

/-- The empty store. -/
def PipeState.empty : PipeState :=
  ⟨[], [], [], [], [], 1, 1, 1⟩

/-- `run_pipeline` (pipeline.py lines 77-302), modelled at the level of its
database and vector-store effects.  Inputs beyond the stored state:

* `file_hash` — the SHA-256 of the submitted PDF,
* `pagesData` — the output of `render_pdf_pages` (empty means "no pages
  rendered", which the code treats as a skip),
* `ocrTexts` — the OCR text obtained for each rendered page (per-page OCR
  errors already collapsed to `""` by the consumer), in page order,
* `dets` — the `detect_regions` output for each rendered page, in page order.

Returns the final state, the trace of persistence events in program order and
the returned `document_id` (`none` models the `return None` skip).

Program order of the effects, exactly as in the source: duplicate check
(line 113), document and page rows (lines 126-148), text-chunk
`vec_store.add` (line 224) *followed by* the `TextChunk` row inserts
(lines 225-235), `Region` row inserts (lines 249-265), region
`vec_store.add` (line 282). -/
def pipelineChunks (document_id : ℕ) (pageIds : List ℕ) (ocrTexts : List (List Char)) :
    List (ℕ × ℕ × ℕ × List Char) :=
  chunk_ocr_results ((pageIds.zip ocrTexts).map (fun p => (p.1, document_id, p.2)))
    DEFAULT_CHUNK_SIZE DEFAULT_CHUNK_OVERLAP

/-- The `TextChunk` row built for one chunk tuple (pipeline.py lines 220-233). -/
def chunkRowOf (document_id : ℕ) (c : ℕ × ℕ × ℕ × List Char) : ChunkRow :=
  ⟨c.1, c.2.1, c.2.2.1, c.2.2.2, Vid.chunk document_id c.1 c.2.2.1⟩

/-- The flattening loop over `vision_results` (pipeline.py lines 244-249):
`(page_id, label, box_2d)` per kept region, page by page. -/
def pipelineRegionsIn (pageIds : List ℕ) (dets : List (List RegionDet)) :
    List (ℕ × String × List ℚ) :=
  ((pageIds.zip dets).map (fun p => (process_page p.2).map (fun r => (p.1, r)))).flatten

/-- The `Region` row built for the `e.1`-th kept region (pipeline.py
lines 250-265): the raw `box_2d` values land in the `box_*` columns and the
row id comes from the autoincrement counter. -/
def regionRowOf (document_id nextRegion : ℕ) (e : ℕ × ℕ × String × List ℚ) : RegionRow :=
  ⟨e.2.1, document_id, e.2.2.1,
   e.2.2.2.getD 0 0, e.2.2.2.getD 1 0, e.2.2.2.getD 2 0, e.2.2.2.getD 3 0,
   Vid.region document_id (nextRegion + e.1)⟩

/-- All `Region` rows of one pipeline run. -/
def pipelineRegionRows (document_id nextRegion : ℕ) (pageIds : List ℕ)
    (dets : List (List RegionDet)) : List RegionRow :=
  (pipelineRegionsIn pageIds dets).enum.map (regionRowOf document_id nextRegion)

/-- The persistence-event trace of one (non-duplicate) pipeline run, in
program order: text-chunk `vec_store.add` (pipeline.py line 224), then the
`TextChunk` row inserts (lines 225-235), then the `Region` row inserts
(lines 249-265), then the region `vec_store.add` (line 282). -/
def pipelineTrace (chunkRows : List ChunkRow) (regionRows : List RegionRow) : List Ev :=
  chunkRows.map (fun r => Ev.vecAdd r.vector_id) ++
    chunkRows.map (fun r => Ev.rowChunk r.vector_id) ++
    (regionRows.map (fun r => Ev.rowRegion r.vector_id) ++
      regionRows.map (fun r => Ev.vecAdd r.vector_id))

def run_pipeline (st : PipeState) (file_hash : String) (pagesData : List PageData)
    (ocrTexts : List (List Char)) (dets : List (List RegionDet)) :
    PipeState × List Ev × Option ℕ :=
  match st.docs.find? (fun d => d.2 = file_hash) with
  | some existing => (st, [], some existing.1)
  | none =>
    if pagesData.isEmpty then (st, [], none)
    else
      let document_id := st.nextDoc
      let pageIds := (List.range pagesData.length).map (fun i => st.nextPage + i)
      let chunkRows := (pipelineChunks document_id pageIds ocrTexts).map (chunkRowOf document_id)
      let regionRows := pipelineRegionRows document_id st.nextRegion pageIds dets
      (⟨st.docs ++ [(document_id, file_hash)],
        st.pages ++ (pageIds.zip pagesData).map (fun p => (p.1, document_id, p.2.page_num)),
        st.chunks ++ chunkRows,
        st.regions ++ regionRows,
        st.vecs ++ chunkRows.map (fun r => r.vector_id) ++ regionRows.map (fun r => r.vector_id),
        st.nextDoc + 1,
        st.nextPage + pagesData.length,
        st.nextRegion + regionRows.length⟩,
       pipelineTrace chunkRows regionRows,
       some document_id)

/-- The row-insert event a vector id's content row produces. -/
def rowEventFor : Vid → Ev
  | Vid.chunk d p c => Ev.rowChunk (Vid.chunk d p c)
  | Vid.region d r => Ev.rowRegion (Vid.region d r)

/-! ### Demonstration inputs (used by the concrete witnesses) -/

/-- A one-page render. -/
def demoPages : List PageData := [⟨1, 100, 100⟩]

/-- OCR found the text "hi" on the page. -/
def demoOcr : List (List Char) := [['h', 'i']]

/-- The detector reported one (degenerate) figure box on the page. -/
def demoDets : List (List RegionDet) := [[⟨"figure", [5, 5, 5, 5]⟩]]

/-- The event trace of ingesting the demonstration document into an empty
store. -/
def demoTrace : List Ev :=
  (run_pipeline PipeState.empty "h0" demoPages demoOcr demoDets).2.1

/-! ## `pipeline.py` — `_ocr_consumer`

The bounded queue is modelled by its contents: a list of `some item` entries
followed by the `none` sentinel pushed by the producer (pipeline.py
lines 164-167).  `task_queue.get(timeout=1)` returns the next entry and
raises `queue.Empty` when the list is exhausted.  `batch_ocr` plus the
per-item error handling (lines 63-72) is abstracted by a per-item result
function `f` — on the exception path every batch item likewise contributes
one `""` result, so each consumed item contributes exactly one entry either
way. -/

/-- The batch-building `for _ in range(batch_size)` loop (pipeline.py
lines 44-52).  `item0` is the current value of the Python variable `item`
(`none` while still unbound); the result is the batch, the remaining queue
contents and the final value of `item`. -/
def takeBatch {α : Type} : ℕ → List (Option α) → Option (Option α) →
    List α × List (Option α) × Option (Option α)
  | 0, s, item0 => ([], s, item0)
  | _ + 1, [], item0 => ([], [], item0)
  | fuel + 1, x :: rest, _ =>
      match x with
      | none => ([], rest, some none)
      | some a =>
          let r := takeBatch fuel rest (some (some a))
          (a :: r.1, r.2.1, r.2.2)

/-- The `while not stop_event.is_set()` loop of `_ocr_consumer` (pipeline.py
lines 43-72), with `stop_event` never set (the pipeline never sets it).
Per iteration: build a batch; if it is empty, exit when `item is None` and
poll again otherwise; if it is non-empty, run OCR on it and append one result
per batch item to `results`, then loop.  `fuel` bounds the number of
iterations; `none` means the fuel ran out before the consumer exited. -/
def consumeLoop {α β : Type} (batch_size : ℕ) (f : α → β) :
    ℕ → List (Option α) → Option (Option α) → List β → Option (List β)
  | 0, _, _, _ => none
  | fuel + 1, stream, item0, results =>
      let r := takeBatch batch_size stream item0
      if r.1.isEmpty then
        match r.2.2 with
        | some none => some results
        | _ => consumeLoop batch_size f fuel r.2.1 r.2.2 results
      else consumeLoop batch_size f fuel r.2.1 r.2.2 (results ++ r.1.map f)

/-! ## `vertex_embedder.py` — retry loops -/

/-- Outcome of one `model.get_embeddings` attempt for one input item:
success with a vector, `google.api_core.exceptions.ResourceExhausted`
(quota), or any other exception. -/
inductive Att where
  | ok (v : List ℚ)
  | quota
  | fail
deriving DecidableEq

/-- The errors an embedding call propagates. -/
inductive EmbErr where
  | quota
  | other
deriving DecidableEq, Repr

/-- `max_retries = 5` (vertex_embedder.py lines 62 and 104). -/
def MAX_RETRIES : ℕ := 5

/-- The `while True` retry loop of `embed_text` for one text item
(vertex_embedder.py lines 60-78).  `att n` is the outcome of attempt `n`
(0-based); the second component records the `time.sleep(2 ** retries)` wait
times, in seconds, in order. -/
def embedTextAttempts (att : ℕ → Att) : ℕ → ℕ → Except EmbErr (List ℚ) × List ℕ
  | attempt, retries =>
    match att attempt with
    | Att.ok v => (Except.ok v, [])
    | Att.fail => (Except.error EmbErr.other, [])
    | Att.quota =>
        if h : retries + 1 > MAX_RETRIES then (Except.error EmbErr.quota, [])
        else
          let r := embedTextAttempts att (attempt + 1) (retries + 1)
          (r.1, 2 ^ (retries + 1) :: r.2)
  termination_by _ retries => MAX_RETRIES + 1 - retries

/-- `embed_text(texts)` (vertex_embedder.py lines 47-81): embed the items in
order, collecting the vectors; the first exception aborts the whole call.
Each item is given by its per-attempt outcome function.  The second component
collects all backoff sleeps performed. -/
def embed_text : List (ℕ → Att) → Except EmbErr (List (List ℚ)) × List ℕ
  | [] => (Except.ok [], [])
  | att :: rest =>
      let r := embedTextAttempts att 0 0
      match r.1 with
      | Except.error e => (Except.error e, r.2)
      | Except.ok v =>
          let rr := embed_text rest
          ((rr.1).map (fun vs => v :: vs), r.2 ++ rr.2)

/-- The `while True` retry loop of `embed_images` for one image input
(vertex_embedder.py lines 102-132); the temp-file load failure is part of the
`Att.fail` outcome (it is re-raised, not retried). -/
def embedImageAttempts (att : ℕ → Att) : ℕ → ℕ → Except EmbErr (List ℚ) × List ℕ
  | attempt, retries =>
    match att attempt with
    | Att.ok v => (Except.ok v, [])
    | Att.fail => (Except.error EmbErr.other, [])
    | Att.quota =>
        if h : retries + 1 > MAX_RETRIES then (Except.error EmbErr.quota, [])
        else
          let r := embedImageAttempts att (attempt + 1) (retries + 1)
          (r.1, 2 ^ (retries + 1) :: r.2)
  termination_by _ retries => MAX_RETRIES + 1 - retries

/-- `embed_images(image_inputs)` (vertex_embedder.py lines 84-135). -/
def embed_images : List (ℕ → Att) → Except EmbErr (List (List ℚ)) × List ℕ
  | [] => (Except.ok [], [])
  | att :: rest =>
      let r := embedImageAttempts att 0 0
      match r.1 with
      | Except.error e => (Except.error e, r.2)
      | Except.ok v =>
          let rr := embed_images rest
          ((rr.1).map (fun vs => v :: vs), r.2 ++ rr.2)

/-! ## `vector_store.py` — the two backends -/

/-- Metadata maps, modelled as association lists with rational values. -/
abbrev Meta : Type := List (String × ℚ)

/-- The state of `InMemoryVectorStore` (vector_store.py lines 51-59):
an id list, a row-matrix of vectors and a metadata list, plus the configured
dimension. -/
structure InMemStore where
  dimension : ℕ
  ids : List String
  vectors : List (List ℚ)
  metadata : List Meta
deriving DecidableEq

/-- A fresh `InMemoryVectorStore(dimension)`. -/
def InMemStore.init (dimension : ℕ) : InMemStore :=
  ⟨dimension, [], [], []⟩

/-- `InMemoryVectorStore.add` (vector_store.py lines 61-84): empty input is a
no-op, a length mismatch or a wrong vector dimension raises (`none`),
otherwise ids, vectors and metadata are appended. -/
def inMemAdd (st : InMemStore) (ids : List String) (vectors : List (List ℚ))
    (metadata : List Meta) : Option InMemStore :=
  if ids.isEmpty ∨ vectors.isEmpty then some st
  else if ids.length ≠ vectors.length then none
  else
    let meta := if metadata.length ≠ ids.length then List.replicate ids.length ([] : Meta)
      else metadata
    if (vectors.headD []).length ≠ st.dimension then none
    else some ⟨st.dimension, st.ids ++ ids, st.vectors ++ vectors, st.metadata ++ meta⟩

/-- `np.dot` of two equal-length rows. -/
def dotQ (a b : List ℚ) : ℚ :=
  (a.zipWith (fun x y => x * y) b).sum

/-- `all(meta.get(k) == v for k, v in filter_metadata.items())`
(vector_store.py line 102). -/
def metaMatches (filt : Meta) (meta : Meta) : Bool :=
  filt.all (fun p => ((meta.find? (fun q => q.1 = p.1)).map Prod.snd) = some p.2)

/-- `np.argsort(scores)` — a stable ascending argsort (indices sorted by
score, equal scores keeping index order). -/
def argsortAsc (scores : List ℚ) : List ℕ :=
  (List.range scores.length).mergeSort (fun i j => decide (scores.getD i 0 ≤ scores.getD j 0))

/-- `scores = np.dot(self._vectors, q.T).flatten()` (vector_store.py
line 96). -/
def inMemScores (st : InMemStore) (vector : List ℚ) : List ℚ :=
  st.vectors.map (fun v => dotQ v vector)

/-- The metadata-filter branch of the result loop (vector_store.py
lines 100-103). -/
def inMemKeep (st : InMemStore) (filt : Option Meta) (indices : List ℕ) : List ℕ :=
  indices.filter (fun i =>
    match filt with
    | none => true
    | some fm => metaMatches fm (st.metadata.getD i []))

/-- `InMemoryVectorStore.search` (vector_store.py lines 86-105): dot-product
scores, `np.argsort(scores)[::-1][:top_k]`, the metadata-filter loop, and the
final `out[:top_k]`.  Result entries are `(id, score, metadata)`. -/
def inMemSearch (st : InMemStore) (vector : List ℚ) (top_k : ℕ) (filt : Option Meta) :
    List (String × ℚ × Meta) :=
  if st.vectors.isEmpty ∨ st.ids.isEmpty then []
  else
    ((inMemKeep st filt (((argsortAsc (inMemScores st vector)).reverse).take top_k)).map
      (fun i => (st.ids.getD i "", (inMemScores st vector).getD i 0,
        st.metadata.getD i []))).take top_k

/-- `ChromaVectorStore.search` (vector_store.py lines 156-182) applied to the
reply of the backend query: each `(id, distance, metadata)` row becomes
`(id, 1.0 - min(1.0, dist), metadata)`.  The backend `_collection.query` is
external; the theorems assume its contract (up to `top_k` rows, cosine
distances ascending and non-negative). -/
def chromaSearch (reply : List (String × ℚ × Meta)) : List (String × ℚ × Meta) :=
  reply.map (fun r => (r.1, 1 - min 1 r.2.1, r.2.2))

/-! ## `engine.py` and `keyword_search.py` — search modes -/

/-- The joined fields a result row resolves to (engine.py `_row_to_item`
arguments minus score and vector id). -/
structure RowInfo where
  document_id : ℕ
  document_title : String
  page_id : ℕ
  page_num : ℕ
  result_type : String
  chunk_id : Option ℕ
  region_id : Option ℕ
  snippet : String
deriving DecidableEq, Repr

/-- One `keyword_search` result tuple (keyword_search.py lines 53 and 69):
resolved fields, rank score and the row's `vector_id` (which is NULL for a
chunk or region row whose vector was never registered). -/
structure KwRow where
  info : RowInfo
  score : ℚ
  vector_id : Option String
deriving DecidableEq, Repr

/-- A `SearchResultItem` (engine.py `_row_to_item`); the `round(score, 4)`
presentation step is not modelled, the claims here do not depend on it. -/
structure ResultItem where
  info : RowInfo
  score : ℚ
  vector_id : Option String
deriving DecidableEq, Repr

/-- Python truthiness of an optional string: `if r[9]:` is false for both
`None` and `""`. -/
def pyTruthyStr : Option String → Bool
  | none => false
  | some s => s ≠ ""

/-- `keyword` mode (engine.py lines 117-126): every keyword row, including
rows with a NULL `vector_id`, becomes a result item. -/
def keyword_mode (kw : List KwRow) : List ResultItem :=
  kw.map (fun r => ⟨r.info, r.score, r.vector_id⟩)

/-- `kw_list = [(r[9], r[8]) for r in kw_results if r[9]]` (engine.py
line 152): the keyword list fed into RRF, dropping rows with falsy
`vector_id`. -/
def kwFusionList (kw : List KwRow) : List (String × ℚ) :=
  (kw.filter (fun r => pyTruthyStr r.vector_id)).map (fun r => (r.vector_id.getD "", r.score))

/-- The `id_to_info` entries contributed by the keyword rows (engine.py
lines 161-163): for each truthy `vector_id` the *last* such row wins
(dict assignment overwrites). -/
def kwInfoDict (kw : List KwRow) (vid : String) : Option RowInfo :=
  ((kw.filter (fun r => pyTruthyStr r.vector_id && r.vector_id = some vid)).getLast?).map
    (fun r => r.info)

/-- `hybrid` mode (engine.py lines 149-182): fuse the truthy keyword list and
the vector list with RRF, truncate to `top_k`, resolve each fused id through
the keyword rows first and `_resolve_vector_ids` (abstracted as `resolve`)
otherwise, dropping unresolved ids. -/
def hybrid_mode (kw : List KwRow) (vec : List (String × ℚ))
    (resolve : String → Option RowInfo) (top_k : ℕ) : List ResultItem :=
  let kwList := kwFusionList kw
  if kwList.isEmpty ∧ vec.isEmpty then []
  else
    let merged := rrf_merge [kwList, vec] DEFAULT_K
    (merged.take top_k).filterMap (fun p =>
      (match kwInfoDict kw p.1 with
       | some i => some i
       | none => resolve p.1).map (fun i => ResultItem.mk i p.2 (some p.1)))

/-! ## `chains.py` — chat history -/

/-- One `ChatMessage` row: timestamp, role and content. -/
structure ChatMsg where
  ts : ℕ
  role : String
  content : String
deriving DecidableEq, Repr

/-- `_load_history(session_id, limit=20)` (chains.py lines 35-60) applied to
the session's messages: `order_by(ChatMessage.timestamp.asc()).limit(limit)`
— an ascending stable sort followed by `take limit`. -/
def load_history (msgs : List ChatMsg) (limit : ℕ) : List ChatMsg :=
  (msgs.mergeSort (fun a b => decide (a.ts ≤ b.ts))).take limit

/-- From the spec of agent memory: "the 20 most recent messages of that
session, presented in ascending timestamp order" — the last `n` entries of
the ascending ordering. -/
def mostRecentAsc (msgs : List ChatMsg) (n : ℕ) : List ChatMsg :=
  let sorted := msgs.mergeSort (fun a b => decide (a.ts ≤ b.ts))
  sorted.drop (sorted.length - n)

/-- A demonstration embedding item: quota-limited on the first two attempts,
successful on the third. -/
def demoAtt : ℕ → Att :=
  fun n => if n < 2 then Att.quota else Att.ok [1]

/-- Two demonstration ranked lists (keyword and vector) for RRF fusion. -/
def demoLists : List (List (String × ℚ)) :=
  [[("a", 1), ("b", 1/2)], [("b", 9), ("c", 1)]]

/-!
# Theorems
-/

/-! ## Position helpers -/

/-- An element that does not occur in the front part of an append sits at an
index past the front part. -/
theorem le_idx_of_not_mem_front {α : Type} {u w : List α} {e : α} {i : ℕ}
    (hne : e ∉ u) (h : (u ++ w)[i]? = some e) : u.length ≤ i := by
  by_contra hc
  push_neg at hc
  rw [List.getElem?_append, if_pos hc] at h
  rcases List.getElem?_eq_some.mp h with ⟨hlt, he⟩
  exact hne (he ▸ List.getElem_mem hlt)

/-- An element that does not occur in the back part of an append sits at an
index inside the front part. -/
theorem idx_lt_of_not_mem_back {α : Type} {u w : List α} {e : α} {i : ℕ}
    (hne : e ∉ w) (h : (u ++ w)[i]? = some e) : i < u.length := by
  by_contra hc
  push_neg at hc
  rw [List.getElem?_append_right hc] at h
  rcases List.getElem?_eq_some.mp h with ⟨hlt, he⟩
  exact hne (he ▸ List.getElem_mem hlt)

/-! ## C1 — persistence order of rows and vectors -/

/-- In any pipeline trace whose chunk rows carry chunk-shaped vector ids and
whose region rows carry region-shaped vector ids, every region row-insert
precedes every region vector registration with the same id, and every
text-chunk vector registration precedes every chunk row-insert with the same
id. -/
theorem pipelineTrace_order (chunkRows : List ChunkRow) (regionRows : List RegionRow)
    (hc : ∀ r ∈ chunkRows, ∃ d p i, r.vector_id = Vid.chunk d p i)
    (hr : ∀ r ∈ regionRows, ∃ d n, r.vector_id = Vid.region d n) :
    (∀ (d n i j : ℕ),
      (pipelineTrace chunkRows regionRows)[i]? = some (Ev.rowRegion (Vid.region d n)) →
      (pipelineTrace chunkRows regionRows)[j]? = some (Ev.vecAdd (Vid.region d n)) → i < j) ∧
    (∀ (d p c i j : ℕ),
      (pipelineTrace chunkRows regionRows)[i]? = some (Ev.vecAdd (Vid.chunk d p c)) →
      (pipelineTrace chunkRows regionRows)[j]? = some (Ev.rowChunk (Vid.chunk d p c)) → i < j) := by
  classical
  set A := chunkRows.map (fun r => Ev.vecAdd r.vector_id) with hA
  set B := chunkRows.map (fun r => Ev.rowChunk r.vector_id) with hB
  set C := regionRows.map (fun r => Ev.rowRegion r.vector_id) with hC
  set D := regionRows.map (fun r => Ev.vecAdd r.vector_id) with hD
  have htr : pipelineTrace chunkRows regionRows = A ++ B ++ (C ++ D) := rfl
  constructor
  · intro d n i j hi hj
    have htr2 : pipelineTrace chunkRows regionRows = (A ++ B ++ C) ++ D := by
      rw [htr, List.append_assoc, List.append_assoc, List.append_assoc]
    rw [htr2] at hi hj
    have h1 : Ev.rowRegion (Vid.region d n) ∉ D := by
      intro hmem
      rcases List.mem_map.mp hmem with ⟨r, _, heq⟩
      simp at heq
    have h2 : Ev.vecAdd (Vid.region d n) ∉ A ++ B ++ C := by
      intro hmem
      rcases List.mem_append.mp hmem with hab | hc2
      · rcases List.mem_append.mp hab with ha | hb
        · rcases List.mem_map.mp ha with ⟨r, hrm, heq⟩
          rcases hc r hrm with ⟨d2, p2, i2, hshape⟩
          rw [hshape] at heq
          simp at heq
        · rcases List.mem_map.mp hb with ⟨r, _, heq⟩
          simp at heq
      · rcases List.mem_map.mp hc2 with ⟨r, _, heq⟩
        simp at heq
    have hi2 : i < (A ++ B ++ C).length := idx_lt_of_not_mem_back h1 hi
    have hj2 : (A ++ B ++ C).length ≤ j := le_idx_of_not_mem_front h2 hj
    omega
  · intro d p c i j hi hj
    have htr2 : pipelineTrace chunkRows regionRows = A ++ (B ++ (C ++ D)) := by
      rw [htr, List.append_assoc]
    rw [htr2] at hi hj
    have h1 : Ev.vecAdd (Vid.chunk d p c) ∉ B ++ (C ++ D) := by
      intro hmem
      rcases List.mem_append.mp hmem with hb | hcd
      · rcases List.mem_map.mp hb with ⟨r, _, heq⟩
        simp at heq
      · rcases List.mem_append.mp hcd with hc2 | hd
        · rcases List.mem_map.mp hc2 with ⟨r, _, heq⟩
          simp at heq
        · rcases List.mem_map.mp hd with ⟨r, hrm, heq⟩
          rcases hr r hrm with ⟨d2, n2, hshape⟩
          rw [hshape] at heq
          simp at heq
    have h2 : Ev.rowChunk (Vid.chunk d p c) ∉ A := by
      intro hmem
      rcases List.mem_map.mp hmem with ⟨r, _, heq⟩
      simp at heq
    have hi2 : i < A.length := idx_lt_of_not_mem_back h1 hi
    have hj2 : A.length ≤ j := le_idx_of_not_mem_front h2 hj
    omega

/-- C1 (counterexample): at the demonstration ingest the text-chunk vector is
registered (trace index 0) strictly before its `TextChunk` row is inserted
(trace index 1), so it is false that for every TextChunk and Region the
content-store row exists before the corresponding vector is registered. -/
theorem run_pipeline_row_before_vector_counterexample :
    ¬ (∀ (v : Vid) (i j : ℕ), demoTrace[i]? = some (rowEventFor v) →
        demoTrace[j]? = some (Ev.vecAdd v) → i < j) := by
  intro h
  exact absurd (h (Vid.chunk 1 1 0) 1 0 rfl rfl) (by decide)

/-- C1 (amended): in every run of the ingest pipeline, every `Region` row is
inserted strictly before the vector with its id is registered in the vector
store, while for text chunks the order is reversed: the chunk vectors are
registered strictly before the `TextChunk` rows are inserted. -/
theorem run_pipeline_persistence_order (st : PipeState) (fh : String)
    (pd : List PageData) (ocr : List (List Char)) (dets : List (List RegionDet)) :
    (∀ (d n i j : ℕ),
      ((run_pipeline st fh pd ocr dets).2.1)[i]? = some (Ev.rowRegion (Vid.region d n)) →
      ((run_pipeline st fh pd ocr dets).2.1)[j]? = some (Ev.vecAdd (Vid.region d n)) → i < j) ∧
    (∀ (d p c i j : ℕ),
      ((run_pipeline st fh pd ocr dets).2.1)[i]? = some (Ev.vecAdd (Vid.chunk d p c)) →
      ((run_pipeline st fh pd ocr dets).2.1)[j]? = some (Ev.rowChunk (Vid.chunk d p c)) → i < j) := by
  unfold run_pipeline
  cases hfind : st.docs.find? (fun d => d.2 = fh) with
  | some existing =>
      constructor
      · intro d n i j hi hj
        simp at hi
      · intro d p c i j hi hj
        simp at hi
  | none =>
      by_cases hpd : pd.isEmpty
      · rw [if_pos hpd]
        constructor
        · intro d n i j hi hj
          simp at hi
        · intro d p c i j hi hj
          simp at hi
      · rw [if_neg hpd]
        apply pipelineTrace_order
        · intro r hrm
          rcases List.mem_map.mp hrm with ⟨c, _, rfl⟩
          exact ⟨st.nextDoc, c.1, c.2.2.1, rfl⟩
        · intro r hrm
          rcases List.mem_map.mp hrm with ⟨e, _, rfl⟩
          exact ⟨st.nextDoc, st.nextRegion + e.1, rfl⟩

/-- C1 (witness): at the demonstration ingest, the `Region` row insert (trace
index 2) indeed precedes the region vector registration (trace index 3). -/
theorem run_pipeline_persistence_order_witness :
    demoTrace[2]? = some (Ev.rowRegion (Vid.region 1 1)) ∧
    demoTrace[3]? = some (Ev.vecAdd (Vid.region 1 1)) ∧ 2 < 3 :=
  ⟨rfl, rfl,
    (run_pipeline_persistence_order PipeState.empty "h0" demoPages demoOcr demoDets).1
      1 1 2 3 rfl rfl⟩

/-! ## C5 — duplicate submissions -/

/-- C5: a PDF whose hash equals that of an already-ingested `Document` makes
the pipeline return the existing `document_id` with the state (all tables and
the vector store) unchanged and an empty persistence trace; and every
pipeline run preserves "at most one Document row per file_hash". -/
theorem run_pipeline_duplicate (st : PipeState) (fh : String) (pd : List PageData)
    (ocr : List (List Char)) (dets : List (List RegionDet)) :
    (∀ d, st.docs.find? (fun x => x.2 = fh) = some d →
        run_pipeline st fh pd ocr dets = (st, [], some d.1)) ∧
    ((st.docs.map Prod.snd).Nodup →
        (((run_pipeline st fh pd ocr dets).1).docs.map Prod.snd).Nodup) := by
  constructor
  · intro d hd
    unfold run_pipeline
    rw [hd]
  · intro hnd
    unfold run_pipeline
    cases hfind : st.docs.find? (fun d => d.2 = fh) with
    | some existing => exact hnd
    | none =>
        by_cases hpd : pd.isEmpty
        · rw [if_pos hpd]
          exact hnd
        · rw [if_neg hpd]
          have habs : fh ∉ st.docs.map Prod.snd := by
            intro hmem
            rcases List.mem_map.mp hmem with ⟨x, hx, hxe⟩
            have := List.find?_eq_none.mp hfind x hx
            simp at this
            exact this hxe
          simp only [List.map_append]
          rw [List.nodup_append]
          refine ⟨hnd, List.nodup_singleton _, ?_⟩
          intro a ha hb
          simp at hb
          exact habs (hb ▸ ha)

/-- C5 (witness): re-submitting the demonstration document to the store that
already contains it returns id 1 and leaves everything unchanged. -/
theorem run_pipeline_duplicate_witness :
    ((run_pipeline PipeState.empty "h0" demoPages demoOcr demoDets).1).docs.find?
        (fun x => x.2 = "h0") = some (1, "h0") ∧
    run_pipeline ((run_pipeline PipeState.empty "h0" demoPages demoOcr demoDets).1)
        "h0" demoPages demoOcr demoDets =
      ((run_pipeline PipeState.empty "h0" demoPages demoOcr demoDets).1, [], some 1) :=
  ⟨by decide,
    (run_pipeline_duplicate ((run_pipeline PipeState.empty "h0" demoPages demoOcr demoDets).1)
        "h0" demoPages demoOcr demoDets).1 (1, "h0") (by decide)⟩

/-! ## C2 — region box bounds -/

/-- Every region tuple flattened out of `process_page` output carries a
four-entry box (`crop_image` raises otherwise and the region is skipped). -/
theorem pipelineRegionsIn_box_len (pageIds : List ℕ) (dets : List (List RegionDet)) :
    ∀ x ∈ pipelineRegionsIn pageIds dets, x.2.2.length = 4 := by
  intro x hx
  rcases List.mem_flatten.mp hx with ⟨l, hl, hxl⟩
  rcases List.mem_map.mp hl with ⟨p, _, rfl⟩
  rcases List.mem_map.mp hxl with ⟨r, hr, rfl⟩
  rcases List.mem_filterMap.mp hr with ⟨rd, _, heq⟩
  by_cases hlen : rd.box_2d.length = 4
  · rw [if_pos hlen] at heq
    cases heq
    exact hlen
  · rw [if_neg hlen] at heq
    cases heq

/-- C2 (counterexample): the demonstration ingest (page raster 100×100, one
detected region with the degenerate box `[5, 5, 5, 5]`) persists a `Region`
row with `box_y0 = box_y1 = 5`, so it is false that every persisted Region
row satisfies `0 ≤ y0 < y1 ≤ page_height` and `0 ≤ x0 < x1 ≤ page_width`. -/
theorem region_row_bounds_counterexample :
    ¬ (∀ r ∈ (run_pipeline PipeState.empty "h0" demoPages demoOcr demoDets).1.regions,
        0 ≤ r.box_y0 ∧ r.box_y0 < r.box_y1 ∧ r.box_y1 ≤ 100 ∧
        0 ≤ r.box_x0 ∧ r.box_x0 < r.box_x1 ∧ r.box_x1 ≤ 100) := by
  intro h
  have hm : (⟨1, 1, "figure", 5, 5, 5, 5, Vid.region 1 1⟩ : RegionRow) ∈
      (run_pipeline PipeState.empty "h0" demoPages demoOcr demoDets).1.regions := by
    decide
  rcases h _ hm with ⟨_, h2, _⟩
  exact absurd h2 (by decide)

/-- C2 (amended): a persisted `Region` row stores the detector's *raw* box
coordinates unchanged — any detection with a four-entry `box_2d` yields a row
(degenerate and out-of-bounds boxes included); clamping happens only when the
crop rectangle is computed, where `scale_box_to_pixels` does guarantee
`0 ≤ y0 ≤ H-1`, `0 ≤ y1 ≤ H`, `0 ≤ x0 ≤ W-1`, `0 ≤ x1 ≤ W`. -/
theorem run_pipeline_region_rows_raw (st : PipeState) (fh : String) (pd : List PageData)
    (ocr : List (List Char)) (dets : List (List RegionDet)) :
    (∀ r ∈ (run_pipeline st fh pd ocr dets).1.regions,
      r ∈ st.regions ∨
      ∃ (pid : ℕ) (lbl : String) (box : List ℚ),
        (pid, lbl, box) ∈ pipelineRegionsIn
          ((List.range pd.length).map (fun i => st.nextPage + i)) dets ∧
        box.length = 4 ∧ r.page_id = pid ∧ r.label = lbl ∧
        r.box_y0 = box.getD 0 0 ∧ r.box_x0 = box.getD 1 0 ∧
        r.box_y1 = box.getD 2 0 ∧ r.box_x1 = box.getD 3 0) ∧
    (∀ (y0 x0 y1 x1 : ℚ) (H W : ℤ) (norm : Bool), 0 < H → 0 < W →
      0 ≤ (scale_box_to_pixels y0 x0 y1 x1 H W norm).1 ∧
      (scale_box_to_pixels y0 x0 y1 x1 H W norm).1 ≤ H - 1 ∧
      0 ≤ (scale_box_to_pixels y0 x0 y1 x1 H W norm).2.1 ∧
      (scale_box_to_pixels y0 x0 y1 x1 H W norm).2.1 ≤ W - 1 ∧
      0 ≤ (scale_box_to_pixels y0 x0 y1 x1 H W norm).2.2.1 ∧
      (scale_box_to_pixels y0 x0 y1 x1 H W norm).2.2.1 ≤ H ∧
      0 ≤ (scale_box_to_pixels y0 x0 y1 x1 H W norm).2.2.2 ∧
      (scale_box_to_pixels y0 x0 y1 x1 H W norm).2.2.2 ≤ W) := by
  constructor
  · intro r hr
    unfold run_pipeline at hr
    cases hfind : st.docs.find? (fun d => d.2 = fh) with
    | some existing =>
        rw [hfind] at hr
        exact Or.inl hr
    | none =>
        rw [hfind] at hr
        by_cases hpd : pd.isEmpty
        · rw [if_pos hpd] at hr
          exact Or.inl hr
        · rw [if_neg hpd] at hr
          simp only at hr
          rcases List.mem_append.mp hr with hold | hnew
          · exact Or.inl hold
          · right
            rcases List.mem_map.mp hnew with ⟨e, he, rfl⟩
            have he2 : e.2 ∈ pipelineRegionsIn
                ((List.range pd.length).map (fun i => st.nextPage + i)) dets := by
              have := he
              rw [List.enum_eq_zip_range] at this
              exact (List.of_mem_zip this).2
            refine ⟨e.2.1, e.2.2.1, e.2.2.2, he2, ?_, rfl, rfl, rfl, rfl, rfl, rfl⟩
            exact pipelineRegionsIn_box_len _ _ _ he2
  · intro y0 x0 y1 x1 H W norm hH hW
    unfold scale_box_to_pixels
    dsimp only
    omega

/-- C2 (witness): clamping the demonstration box `[5,5,5,5]` on the 100×100
raster stays within the pixel bounds. -/
theorem run_pipeline_region_rows_raw_witness :
    (0 : ℤ) < 100 ∧
    (0 ≤ (scale_box_to_pixels 5 5 5 5 100 100 false).1 ∧
      (scale_box_to_pixels 5 5 5 5 100 100 false).1 ≤ 100 - 1 ∧
      0 ≤ (scale_box_to_pixels 5 5 5 5 100 100 false).2.1 ∧
      (scale_box_to_pixels 5 5 5 5 100 100 false).2.1 ≤ 100 - 1 ∧
      0 ≤ (scale_box_to_pixels 5 5 5 5 100 100 false).2.2.1 ∧
      (scale_box_to_pixels 5 5 5 5 100 100 false).2.2.1 ≤ 100 ∧
      0 ≤ (scale_box_to_pixels 5 5 5 5 100 100 false).2.2.2 ∧
      (scale_box_to_pixels 5 5 5 5 100 100 false).2.2.2 ≤ 100) :=
  ⟨by decide,
    (run_pipeline_region_rows_raw PipeState.empty "h0" demoPages demoOcr demoDets).2
      5 5 5 5 100 100 false (by decide) (by decide)⟩

/-! ## C4 — chat history loading -/

/-- A session holding 21 messages with timestamps 0,…,20. -/
def demoMsgs : List ChatMsg :=
  (List.range 21).map (fun i => ChatMsg.mk i "user" "m")

/-- C4 (counterexample): for a session holding 21 messages with timestamps
0,…,20, `_load_history` returns the messages with timestamps 0,…,19 — not the
20 most recent ones (timestamps 1,…,20) — so the loaded history is not the
20 most recent messages in ascending order. -/
theorem load_history_counterexample :
    ¬ (load_history demoMsgs 20 = mostRecentAsc demoMsgs 20) := by
  have hs : demoMsgs.mergeSort (fun a b => decide (a.ts ≤ b.ts)) = demoMsgs := by
    apply List.mergeSort_of_sorted
    decide
  rw [load_history, mostRecentAsc]
  simp only [hs]
  decide

/-- C4 (amended): for any session, the history loaded before the first turn
consists of the (up to) 20 *oldest* messages of the session, in ascending
timestamp order: `_load_history` orders ascending and applies the limit,
keeping the earliest messages and dropping the most recent ones. -/
theorem load_history_oldest (msgs : List ChatMsg) (limit : ℕ) :
    List.Pairwise (fun a b => a.ts ≤ b.ts) (load_history msgs limit) ∧
    (load_history msgs limit).length = min limit msgs.length ∧
    (∀ x ∈ load_history msgs limit,
      ∀ y ∈ (msgs.mergeSort (fun a b => decide (a.ts ≤ b.ts))).drop limit, x.ts ≤ y.ts) := by
  have htrans : ∀ a b c : ChatMsg, decide (a.ts ≤ b.ts) = true →
      decide (b.ts ≤ c.ts) = true → decide (a.ts ≤ c.ts) = true := by
    intro a b c hab hbc
    exact decide_eq_true (le_trans (of_decide_eq_true hab) (of_decide_eq_true hbc))
  have htotal : ∀ a b : ChatMsg,
      (decide (a.ts ≤ b.ts) || decide (b.ts ≤ a.ts)) = true := by
    intro a b
    rcases le_total a.ts b.ts with h | h <;> simp [h]
  have hsorted := List.sorted_mergeSort htrans htotal msgs
  have hsplit := List.take_append_drop limit (msgs.mergeSort (fun a b => decide (a.ts ≤ b.ts)))
  refine ⟨?_, ?_, ?_⟩
  · have := List.Pairwise.sublist (List.take_sublist limit _) hsorted
    exact this.imp (fun h => of_decide_eq_true h)
  · rw [load_history, List.length_take,
      (List.mergeSort_perm msgs (fun a b => decide (a.ts ≤ b.ts))).length_eq]
  · intro x hx y hy
    have hp : List.Pairwise (fun a b : ChatMsg => decide (a.ts ≤ b.ts) = true)
        ((msgs.mergeSort (fun a b => decide (a.ts ≤ b.ts))).take limit ++
          (msgs.mergeSort (fun a b => decide (a.ts ≤ b.ts))).drop limit) := by
      rw [hsplit]
      exact hsorted
    exact of_decide_eq_true ((List.pairwise_append.mp hp).2.2 x hx y hy)

/-- C4 (witness): on the 21-message demonstration session the loaded history
has exactly 20 entries. -/
theorem load_history_oldest_witness :
    (load_history demoMsgs 20).length = min 20 demoMsgs.length :=
  (load_history_oldest demoMsgs 20).2.1

/-! ## C10 — hybrid search and NULL vector ids -/

/-- C10: a keyword hit whose `vector_id` is NULL is invisible to hybrid
search — adding it to the keyword results changes neither the RRF input list
nor the hybrid result list — although keyword mode does return it; and every
hybrid result item carries a non-NULL `vector_id`, so a `TextChunk` or
`Region` row with no `vector_id` can never appear in a hybrid result list. -/
theorem hybrid_mode_excludes_null_vector_id (r : KwRow) (kw : List KwRow)
    (vec : List (String × ℚ)) (resolve : String → Option RowInfo) (top_k : ℕ)
    (hnull : r.vector_id = none) :
    kwFusionList (r :: kw) = kwFusionList kw ∧
    hybrid_mode (r :: kw) vec resolve top_k = hybrid_mode kw vec resolve top_k ∧
    ResultItem.mk r.info r.score r.vector_id ∈ keyword_mode (r :: kw) ∧
    (∀ item ∈ hybrid_mode kw vec resolve top_k, item.vector_id ≠ none) := by
  have hfalse : pyTruthyStr r.vector_id = false := by
    rw [hnull]
    rfl
  have h1 : kwFusionList (r :: kw) = kwFusionList kw := by
    unfold kwFusionList
    rw [List.filter_cons, hfalse]
    simp
  have h2 : ∀ v, kwInfoDict (r :: kw) v = kwInfoDict kw v := by
    intro v
    unfold kwInfoDict
    rw [List.filter_cons]
    rw [hfalse]
    simp
  refine ⟨h1, ?_, ?_, ?_⟩
  · unfold hybrid_mode
    rw [h1]
    have hfun : (fun p : String × ℚ =>
        ((match kwInfoDict (r :: kw) p.1 with
          | some i => some i
          | none => resolve p.1).map (fun i => ResultItem.mk i p.2 (some p.1)))) =
        (fun p : String × ℚ =>
        ((match kwInfoDict kw p.1 with
          | some i => some i
          | none => resolve p.1).map (fun i => ResultItem.mk i p.2 (some p.1)))) := by
      funext p
      rw [h2 p.1]
    rw [hfun]
  · unfold keyword_mode
    exact List.mem_map.mpr ⟨r, List.mem_cons_self r kw, rfl⟩
  · intro item hitem
    unfold hybrid_mode at hitem
    by_cases hempty : (kwFusionList kw).isEmpty ∧ vec.isEmpty
    · rw [if_pos hempty] at hitem
      cases hitem
    · rw [if_neg hempty] at hitem
      rcases List.mem_filterMap.mp hitem with ⟨p, _, heq⟩
      rcases Option.map_eq_some'.mp heq with ⟨i, _, hi⟩
      rw [← hi]
      simp

/-- C10 (witness): a keyword row with NULL `vector_id` leaves the hybrid
result list unchanged on a concrete search. -/
theorem hybrid_mode_excludes_null_vector_id_witness :
    (KwRow.mk (RowInfo.mk 1 "doc" 1 1 "text" (some 1) none "hi") 1 none).vector_id = none ∧
    hybrid_mode [KwRow.mk (RowInfo.mk 1 "doc" 1 1 "text" (some 1) none "hi") 1 none]
        [] (fun _ => none) 5 =
      hybrid_mode [] [] (fun _ => none) 5 :=
  ⟨rfl,
    (hybrid_mode_excludes_null_vector_id
      (KwRow.mk (RowInfo.mk 1 "doc" 1 1 "text" (some 1) none "hi") 1 none)
      [] [] (fun _ => none) 5 rfl).2.1⟩

/-! ## C7 — embedding retries with exponential backoff -/

/-- Retry loop of `embed_text`, success case: `f ≤ 5` quota failures followed
by a success produce the vector after sleeping `2^1, …, 2^f` seconds. -/
theorem embedTextAttempts_ok (att : ℕ → Att) (v : List ℚ) (f : ℕ) (hf : f ≤ MAX_RETRIES)
    (hq : ∀ n, n < f → att n = Att.quota) (hok : att f = Att.ok v) :
    ∀ d j, f = j + d →
      embedTextAttempts att j j =
        (Except.ok v, (List.range' (j + 1) d).map (fun n => 2 ^ n)) := by
  intro d
  induction d with
  | zero =>
      intro j hj
      rw [embedTextAttempts]
      have : att j = Att.ok v := by
        rw [hj] at hok
        simpa using hok
      rw [this]
      rfl
  | succ d ih =>
      intro j hj
      have hqj : att j = Att.quota := hq j (by omega)
      rw [embedTextAttempts, hqj]
      have hle : ¬ (j + 1 > MAX_RETRIES) := by
        unfold MAX_RETRIES at hf ⊢
        omega
      rw [dif_neg hle]
      have hrec := ih (j + 1) (by omega)
      rw [hrec]
      rw [List.range'_succ]
      rfl

/-- Retry loop of `embed_text`, exhaustion case: quota failures on every
attempt propagate the quota error after the sleeps `2^(j+1), …, 2^5`. -/
theorem embedTextAttempts_exhaust (att : ℕ → Att)
    (hq : ∀ n, n ≤ MAX_RETRIES → att n = Att.quota) :
    ∀ d j, MAX_RETRIES = j + d →
      embedTextAttempts att j j =
        (Except.error EmbErr.quota, (List.range' (j + 1) d).map (fun n => 2 ^ n)) := by
  intro d
  induction d with
  | zero =>
      intro j hj
      have hqj : att j = Att.quota := hq j (by omega)
      rw [embedTextAttempts, hqj]
      have : j + 1 > MAX_RETRIES := by omega
      rw [dif_pos this]
      rfl
  | succ d ih =>
      intro j hj
      have hqj : att j = Att.quota := hq j (by omega)
      rw [embedTextAttempts, hqj]
      have hle : ¬ (j + 1 > MAX_RETRIES) := by omega
      rw [dif_neg hle]
      have hrec := ih (j + 1) (by omega)
      rw [hrec]
      rw [List.range'_succ]
      rfl

/-- Retry loop of `embed_images`, success case (same control flow as
`embed_text`). -/
theorem embedImageAttempts_ok (att : ℕ → Att) (v : List ℚ) (f : ℕ) (hf : f ≤ MAX_RETRIES)
    (hq : ∀ n, n < f → att n = Att.quota) (hok : att f = Att.ok v) :
    ∀ d j, f = j + d →
      embedImageAttempts att j j =
        (Except.ok v, (List.range' (j + 1) d).map (fun n => 2 ^ n)) := by
  intro d
  induction d with
  | zero =>
      intro j hj
      rw [embedImageAttempts]
      have : att j = Att.ok v := by
        rw [hj] at hok
        simpa using hok
      rw [this]
      rfl
  | succ d ih =>
      intro j hj
      have hqj : att j = Att.quota := hq j (by omega)
      rw [embedImageAttempts, hqj]
      have hle : ¬ (j + 1 > MAX_RETRIES) := by
        unfold MAX_RETRIES at hf ⊢
        omega
      rw [dif_neg hle]
      have hrec := ih (j + 1) (by omega)
      rw [hrec]
      rw [List.range'_succ]
      rfl

/-- Retry loop of `embed_images`, exhaustion case. -/
theorem embedImageAttempts_exhaust (att : ℕ → Att)
    (hq : ∀ n, n ≤ MAX_RETRIES → att n = Att.quota) :
    ∀ d j, MAX_RETRIES = j + d →
      embedImageAttempts att j j =
        (Except.error EmbErr.quota, (List.range' (j + 1) d).map (fun n => 2 ^ n)) := by
  intro d
  induction d with
  | zero =>
      intro j hj
      have hqj : att j = Att.quota := hq j (by omega)
      rw [embedImageAttempts, hqj]
      have : j + 1 > MAX_RETRIES := by omega
      rw [dif_pos this]
      rfl
  | succ d ih =>
      intro j hj
      have hqj : att j = Att.quota := hq j (by omega)
      rw [embedImageAttempts, hqj]
      have hle : ¬ (j + 1 > MAX_RETRIES) := by omega
      rw [dif_neg hle]
      have hrec := ih (j + 1) (by omega)
      rw [hrec]
      rw [List.range'_succ]
      rfl

/-- C7: on quota errors both `embed_text` and `embed_images` retry the
failing item with exponential backoff of base 2 starting at 2 seconds
(sleeps `2^1, 2^2, …`), make at most `MAX_RETRIES = 5` retry attempts, and
propagate the quota error once the attempts are exhausted (after sleeps
`2, 4, 8, 16, 32`); an item that succeeds within the retry budget still
yields its vector. -/
theorem embed_retry_backoff :
    (∀ (att : ℕ → Att) (v : List ℚ) (f : ℕ), f ≤ MAX_RETRIES →
      (∀ n, n < f → att n = Att.quota) → att f = Att.ok v →
      embed_text [att] = (Except.ok [v], (List.range' 1 f).map (fun n => 2 ^ n)) ∧
      embed_images [att] = (Except.ok [v], (List.range' 1 f).map (fun n => 2 ^ n))) ∧
    (∀ att : ℕ → Att, (∀ n, n ≤ MAX_RETRIES → att n = Att.quota) →
      embed_text [att] = (Except.error EmbErr.quota, [2, 4, 8, 16, 32]) ∧
      embed_images [att] = (Except.error EmbErr.quota, [2, 4, 8, 16, 32])) := by
  constructor
  · intro att v f hf hq hok
    constructor
    · rw [embed_text]
      rw [embedTextAttempts_ok att v f hf hq hok f 0 (Nat.zero_add f).symm]
      simp [Except.map, embed_text]
    · rw [embed_images]
      rw [embedImageAttempts_ok att v f hf hq hok f 0 (Nat.zero_add f).symm]
      simp [Except.map, embed_images]
  · intro att hq
    constructor
    · rw [embed_text]
      rw [embedTextAttempts_exhaust att hq MAX_RETRIES 0 (Nat.zero_add MAX_RETRIES).symm]
      rfl
    · rw [embed_images]
      rw [embedImageAttempts_exhaust att hq MAX_RETRIES 0 (Nat.zero_add MAX_RETRIES).symm]
      rfl

/-- C7 (witness): an item that hits the quota twice and then succeeds is
embedded (by both entry points) after sleeping 2 then 4 seconds. -/
theorem embed_retry_backoff_witness :
    embed_text [demoAtt] = (Except.ok [[1]], [2, 4]) ∧
    embed_images [demoAtt] = (Except.ok [[1]], [2, 4]) :=
  embed_retry_backoff.1 demoAtt [1] 2 (by decide)
    (fun n hn => by
      unfold demoAtt
      rw [if_pos hn])
    (by decide)

/-! ## C8 — the OCR consumer processes the whole stream -/

/-- `takeBatch` on an exhausted queue leaves everything in place
(`queue.Empty` on the first poll). -/
theorem takeBatch_nil {α : Type} (bs : ℕ) (it0 : Option (Option α)) :
    takeBatch bs ([] : List (Option α)) it0 = ([], [], it0) := by
  cases bs with
  | zero => rfl
  | succ b => rfl

/-- `takeBatch` when fewer items than the batch size remain before the
sentinel: it collects them all and consumes the sentinel, setting `item` to
`None`. -/
theorem takeBatch_all {α : Type} (items : List α) (bs : ℕ)
    (h : items.length < bs) (it0 : Option (Option α)) :
    takeBatch bs (items.map some ++ [none]) it0 = (items, [], some none) := by
  induction items generalizing bs it0 with
  | nil =>
      cases bs with
      | zero => omega
      | succ b => rfl
  | cons a rest ih =>
      cases bs with
      | zero => omega
      | succ b =>
          have hres := ih b (by simpa using Nat.lt_of_succ_lt_succ h) (some (some a))
          simp only [takeBatch, List.map_cons, List.cons_append, List.append_eq]
          rw [hres]

/-- `takeBatch` when a full batch is available: it collects exactly
`batch_size` items, leaves the rest (sentinel included) queued, and `item`
holds the last collected item — in particular not `None`. -/
theorem takeBatch_full {α : Type} (bs : ℕ) :
    ∀ (items : List α) (it0 : Option (Option α)), 0 < bs → bs ≤ items.length →
    ∃ a, takeBatch bs (items.map some ++ [none]) it0 =
      (items.take bs, (items.drop bs).map some ++ [none], some (some a)) := by
  induction bs with
  | zero =>
      intro items it0 h0
      omega
  | succ b ih =>
      intro items it0 _ hlen
      cases items with
      | nil => simp at hlen
      | cons a rest =>
          cases b with
          | zero =>
              refine ⟨a, ?_⟩
              simp only [takeBatch, List.map_cons, List.cons_append, takeBatch_nil]
              rfl
          | succ b2 =>
              rcases ih rest (some (some a)) (Nat.succ_pos b2)
                  (by simpa using Nat.le_of_succ_le_succ hlen) with ⟨last, hlast⟩
              refine ⟨last, ?_⟩
              simp only [takeBatch, List.map_cons, List.cons_append, List.append_eq]
              rw [hlast]
              rfl

/-- The consumer exits as soon as the queue is exhausted and `item` is the
sentinel. -/
theorem consumeLoop_exit {α β : Type} (bs : ℕ) (f : α → β) (fuel : ℕ) (h : 0 < fuel)
    (acc : List β) :
    consumeLoop bs f fuel ([] : List (Option α)) (some none) acc = some acc := by
  cases fuel with
  | zero => omega
  | succ fu =>
      rw [consumeLoop]
      rw [takeBatch_nil]
      rfl

/-- Main consumer invariant: with the queue holding `items` followed by the
sentinel, enough fuel, and any non-sentinel current `item` value, the
consumer appends exactly one OCR result per item, in order, and exits. -/
theorem consumeLoop_spec {α β : Type} (bs : ℕ) (f : α → β) (hbs : 0 < bs) :
    ∀ (N : ℕ) (items : List α), items.length ≤ N →
    ∀ (fuel : ℕ) (acc : List β) (it0 : Option (Option α)), items.length + 2 ≤ fuel →
    consumeLoop bs f fuel (items.map some ++ [none]) it0 acc = some (acc ++ items.map f) := by
  intro N
  induction N with
  | zero =>
      intro items hlen fuel acc it0 hfuel
      have : items = [] := List.length_eq_zero.mp (Nat.le_zero.mp hlen)
      subst this
      cases fuel with
      | zero => omega
      | succ fu =>
          rw [consumeLoop]
          rw [show ((([] : List α).map some) ++ [none]) = ([none] : List (Option α)) by rfl]
          rw [show takeBatch bs ([none] : List (Option α)) it0 = ([], [], some none) from
            takeBatch_all [] bs hbs it0]
          simp
  | succ N ih =>
      intro items hlen fuel acc it0 hfuel
      cases fuel with
      | zero => omega
      | succ fu =>
          by_cases hcase : items.length < bs
          · -- final (possibly partial) batch: collected and flushed
            rw [consumeLoop]
            rw [takeBatch_all items bs hcase it0]
            cases items with
            | nil => simp
            | cons a rest =>
                simp only [List.isEmpty_cons, Bool.false_eq_true, if_false]
                exact consumeLoop_exit bs f fu (by omega) (acc ++ List.map f (a :: rest))
          · -- full batch: flush and continue on the remainder
            push_neg at hcase
            rcases takeBatch_full bs items it0 hbs hcase with ⟨last, hfull⟩
            rw [consumeLoop]
            rw [hfull]
            have htake : (items.take bs).isEmpty = false := by
              cases items with
              | nil =>
                  simp only [List.length_nil] at hcase
                  omega
              | cons a rest =>
                  cases bs with
                  | zero => omega
                  | succ b => simp
            simp only [htake, Bool.false_eq_true, if_false]
            have hrec := ih (items.drop bs)
              (by
                rw [List.length_drop]
                omega)
              fu (acc ++ (items.take bs).map f) (some (some last))
              (by
                rw [List.length_drop]
                omega)
            rw [hrec]
            rw [List.append_assoc, ← List.map_append, List.take_append_drop]

/-- C8: for every sequence of items pushed into the OCR queue followed by the
`None` sentinel, the consumer (`_ocr_consumer`'s loop) processes every pushed
item exactly once and in order — the sentinel closes the stream and a
trailing batch smaller than `batch_size` is still flushed before the consumer
exits.  (The queue is modelled by its contents; `queue.get` returns the next
entry.) -/
theorem ocr_consumer_processes_all {α β : Type} (bs : ℕ) (f : α → β)
    (items : List α) (hbs : 0 < bs) :
    consumeLoop bs f (items.length + 2) (items.map some ++ [none]) none [] =
      some (items.map f) := by
  have := consumeLoop_spec bs f hbs items.length items (le_refl _)
    (items.length + 2) [] none (le_refl _)
  simpa using this

/-- C8 (witness): a batch size of 12 with only 5 queued pages still OCRs all
5 pages — the partial batch is flushed when the sentinel arrives. -/
theorem ocr_consumer_processes_all_witness :
    consumeLoop 12 (fun n : ℕ => n + 100) ([0, 1, 2, 3, 4].length + 2)
        ([0, 1, 2, 3, 4].map some ++ [none]) none [] =
      some [100, 101, 102, 103, 104] :=
  ocr_consumer_processes_all 12 (fun n : ℕ => n + 100) [0, 1, 2, 3, 4] (by decide)

/-! ## C9 — chunking -/

/-- Peeling one stride off the window count: `⌈d/step⌉ = ⌈(d-step)/step⌉ + 1`
for positive `d`. -/
theorem windowCount_succ (step d : ℕ) (hstep : 0 < step) (hd : 0 < d) :
    windowCount step d = windowCount step (d - step) + 1 := by
  unfold windowCount
  rcases le_or_lt d step with hle | hlt
  · have h1 : d - step = 0 := by omega
    rw [h1]
    have h2 : (0 + step - 1) / step = 0 := Nat.div_eq_of_lt (by omega)
    rw [h2]
    have h3 : d + step - 1 = (d - 1) + step := by omega
    rw [h3, Nat.add_div_right _ hstep]
    have h4 : (d - 1) / step = 0 := Nat.div_eq_of_lt (by omega)
    rw [h4]
  · have h3 : d + step - 1 = ((d - step) + step - 1) + step := by omega
    rw [h3, Nat.add_div_right _ hstep]

/-- The `while` loop of `chunk_text` equals the closed-form window list: from
position `start` it emits the non-blank windows
`t[start + i*step : start + i*step + size]` for `i < ⌈(|t|-start)/step⌉`,
where `step = size - overlap`. -/
theorem chunkLoop_eq_windows (size ov : ℕ) (hov : ov < size) (t : List Char) :
    ∀ (fuel start : ℕ), windowCount (size - ov) (t.length - start) ≤ fuel →
    chunkLoop size ov t fuel start =
      ((List.range (windowCount (size - ov) (t.length - start))).map
        (fun i => (t.drop (start + i * (size - ov))).take size)).filter
        (fun c => !pyBlank c) := by
  have hstep : 0 < size - ov := by omega
  intro fuel
  induction fuel with
  | zero =>
      intro start hfuel
      have h0 : windowCount (size - ov) (t.length - start) = 0 := Nat.le_zero.mp hfuel
      rw [chunkLoop, h0]
      rfl
  | succ fu ih =>
      intro start hfuel
      by_cases hlt : start < t.length
      · have hd : 0 < t.length - start := by omega
        have hcnt := windowCount_succ (size - ov) (t.length - start) hstep hd
        have harg : t.length - start - (size - ov) = t.length - (start + (size - ov)) := by
          omega
        rw [harg] at hcnt
        rw [chunkLoop, if_pos hlt]
        have harg2 : start + size - ov = start + (size - ov) := by omega
        rw [harg2]
        have hrec := ih (start + (size - ov)) (by omega)
        rw [hrec, hcnt, List.range_succ_eq_map, List.map_cons, List.filter_cons]
        have hhead : start + 0 * (size - ov) = start := by omega
        rw [hhead]
        have htail : (List.range (windowCount (size - ov)
              (t.length - (start + (size - ov))))).map
              ((fun i => (t.drop (start + i * (size - ov))).take size) ∘ Nat.succ) =
            (List.range (windowCount (size - ov)
              (t.length - (start + (size - ov))))).map
              (fun i => (t.drop (start + (size - ov) + i * (size - ov))).take size) := by
          apply List.map_congr_left
          intro i _
          simp only [Function.comp]
          congr 2
          rw [Nat.succ_mul]
          ring
        rw [List.map_map, htail]
        by_cases hblank : pyBlank ((t.drop start).take size) = true
        · rw [if_pos hblank, hblank]
          simp
        · have hb : pyBlank ((t.drop start).take size) = false := by
            rwa [Bool.not_eq_true] at hblank
          rw [if_neg hblank, hb]
          simp
      · rw [chunkLoop, if_neg hlt]
        have h0 : t.length - start = 0 := by omega
        rw [h0]
        have hc0 : windowCount (size - ov) 0 = 0 := by
          unfold windowCount
          exact Nat.div_eq_of_lt (by omega)
        rw [hc0]
        rfl

/-- C9: with the default parameters (width 512, overlap 64), `chunk_text`
emits exactly the non-blank fixed-stride windows of the stripped text with
successive window starts `448 = 512 - 64` apart — a text that fits in one
window (≤ 512 characters after stripping) is emitted as that single window —
empty or whitespace-only text yields no chunks, and chunking the same OCR
results twice yields the same `(chunk_index, text)` sequence. -/
theorem chunk_text_fixed_windows (text : List Char) :
    (pyBlank text = true → chunk_text text DEFAULT_CHUNK_SIZE DEFAULT_CHUNK_OVERLAP = []) ∧
    (DEFAULT_CHUNK_SIZE < (pyStrip text).length →
      chunk_text text DEFAULT_CHUNK_SIZE DEFAULT_CHUNK_OVERLAP =
        chunkWindows DEFAULT_CHUNK_SIZE (DEFAULT_CHUNK_SIZE - DEFAULT_CHUNK_OVERLAP)
          (pyStrip text)) ∧
    (pyBlank text = false → (pyStrip text).length ≤ DEFAULT_CHUNK_SIZE →
      chunk_text text DEFAULT_CHUNK_SIZE DEFAULT_CHUNK_OVERLAP = [pyStrip text]) ∧
    (∀ (rs : List (ℕ × ℕ × List Char)),
      chunk_ocr_results rs DEFAULT_CHUNK_SIZE DEFAULT_CHUNK_OVERLAP =
        chunk_ocr_results rs DEFAULT_CHUNK_SIZE DEFAULT_CHUNK_OVERLAP) := by
  refine ⟨?_, ?_, ?_, fun rs => rfl⟩
  · intro hblank
    rw [chunk_text, if_pos hblank]
  · intro hlen
    have hblank : pyBlank text = false := by
      rw [pyBlank]
      by_contra hc
      simp only [Bool.not_eq_false, decide_eq_true_eq] at hc
      have : pyStrip text = [] := by
        unfold pyStrip at hc ⊢
        exact hc
      rw [this] at hlen
      simp [DEFAULT_CHUNK_SIZE] at hlen
    rw [chunk_text, hblank]
    simp only [Bool.false_eq_true, if_false]
    rw [if_neg (by omega)]
    have hlen2 : 512 < (pyStrip text).length := hlen
    have hcnt : windowCount (DEFAULT_CHUNK_SIZE - DEFAULT_CHUNK_OVERLAP)
        ((pyStrip text).length - 0) ≤ (pyStrip text).length := by
      rw [Nat.sub_zero]
      unfold windowCount DEFAULT_CHUNK_SIZE DEFAULT_CHUNK_OVERLAP
      apply Nat.div_le_of_le_mul
      omega
    have := chunkLoop_eq_windows DEFAULT_CHUNK_SIZE DEFAULT_CHUNK_OVERLAP
      (by unfold DEFAULT_CHUNK_SIZE DEFAULT_CHUNK_OVERLAP; omega) (pyStrip text)
      (pyStrip text).length 0 hcnt
    rw [this]
    rw [chunkWindows]
    rw [Nat.sub_zero]
    apply congrArg
    apply List.map_congr_left
    intro i _
    rw [Nat.zero_add]
  · intro hblank hlen
    rw [chunk_text, hblank]
    simp only [Bool.false_eq_true, if_false]
    rw [if_pos hlen]

set_option maxRecDepth 4000 in
/-- C9 (witness): a 600-character text is chunked into the two windows
`[0:512]` and `[448:600]`. -/
theorem chunk_text_fixed_windows_witness :
    chunk_text (List.replicate 600 'a') DEFAULT_CHUNK_SIZE DEFAULT_CHUNK_OVERLAP =
      chunkWindows DEFAULT_CHUNK_SIZE (DEFAULT_CHUNK_SIZE - DEFAULT_CHUNK_OVERLAP)
        (pyStrip (List.replicate 600 'a')) :=
  (chunk_text_fixed_windows (List.replicate 600 'a')).2.1 (by decide)

/-! ## C6 — vector store search -/

/-- C6 (counterexample): the in-memory backend returns the raw dot product as
the score, so a store holding the vector `[-1]` queried with `[1]` returns
the score `-1 ∉ [0,1]` — the "score ∈ [0,1], 1 − cosine distance, clamped"
contract does not hold for the in-memory backend. -/
theorem inMemSearch_score_range_counterexample :
    inMemAdd (InMemStore.init 1) ["a"] [[-1]] [[]] =
      some (InMemStore.mk 1 ["a"] [[-1]] [[]]) ∧
    ∃ hit ∈ inMemSearch (InMemStore.mk 1 ["a"] [[-1]] [[]]) [1] 1 none,
      ¬ (0 ≤ hit.2.1 ∧ hit.2.1 ≤ 1) := by
  constructor
  · rfl
  · refine ⟨("a", -1, []), ?_, by norm_num⟩
    have h1 : argsortAsc (inMemScores (InMemStore.mk 1 ["a"] [[-1]] [[]]) [1]) = [0] := by
      unfold argsortAsc
      rw [show (inMemScores (InMemStore.mk 1 ["a"] [[-1]] [[]]) [1]).length = 1 from rfl]
      rw [show List.range 1 = [0] from rfl]
      exact List.mergeSort_singleton 0
    unfold inMemSearch
    rw [if_neg (by simp)]
    rw [h1]
    have h2 : inMemScores (InMemStore.mk 1 ["a"] [[-1]] [[]]) [1] = [-1] := by
      unfold inMemScores dotQ
      norm_num
    rw [h2]
    unfold inMemKeep
    simp

/-- C6 (amended): both backends return at most `top_k` results sorted by
score descending, and the persistent (Chroma) backend's score
`1 − min(1, distance)` lies in `[0,1]` with 1 meaning identical; the
in-memory backend's score, however, is the raw dot product (in `[-1,1]` only
for L2-normalised vectors, and not clamped). -/
theorem vector_search_sorted_topk :
    (∀ (st : InMemStore) (q : List ℚ) (top_k : ℕ) (filt : Option Meta),
      (inMemSearch st q top_k filt).length ≤ top_k ∧
      List.Pairwise (fun a b : String × ℚ × Meta => b.2.1 ≤ a.2.1)
        (inMemSearch st q top_k filt)) ∧
    (∀ (reply : List (String × ℚ × Meta)) (top_k : ℕ),
      (∀ r ∈ reply, 0 ≤ r.2.1) →
      List.Pairwise (fun a b : String × ℚ × Meta => a.2.1 ≤ b.2.1) reply →
      reply.length ≤ top_k →
      (chromaSearch reply).length ≤ top_k ∧
      (∀ hit ∈ chromaSearch reply, 0 ≤ hit.2.1 ∧ hit.2.1 ≤ 1) ∧
      List.Pairwise (fun a b : String × ℚ × Meta => b.2.1 ≤ a.2.1)
        (chromaSearch reply)) := by
  constructor
  · intro st q top_k filt
    constructor
    · unfold inMemSearch
      by_cases hempty : st.vectors.isEmpty ∨ st.ids.isEmpty
      · rw [if_pos hempty]
        simp
      · rw [if_neg hempty]
        simp only [List.length_take]
        omega
    · unfold inMemSearch
      by_cases hempty : st.vectors.isEmpty ∨ st.ids.isEmpty
      · rw [if_pos hempty]
        exact List.Pairwise.nil
      · rw [if_neg hempty]
        have htrans : ∀ i j l : ℕ,
            decide ((inMemScores st q).getD i 0 ≤ (inMemScores st q).getD j 0) = true →
            decide ((inMemScores st q).getD j 0 ≤ (inMemScores st q).getD l 0) = true →
            decide ((inMemScores st q).getD i 0 ≤ (inMemScores st q).getD l 0) = true := by
          intro i j l hij hjl
          exact decide_eq_true (le_trans (of_decide_eq_true hij) (of_decide_eq_true hjl))
        have htotal : ∀ i j : ℕ,
            (decide ((inMemScores st q).getD i 0 ≤ (inMemScores st q).getD j 0) ||
             decide ((inMemScores st q).getD j 0 ≤ (inMemScores st q).getD i 0)) = true := by
          intro i j
          simp only [Bool.or_eq_true, decide_eq_true_eq]
          exact le_total _ _
        have hsorted : List.Pairwise
            (fun i j : ℕ => (inMemScores st q).getD j 0 ≤ (inMemScores st q).getD i 0)
            ((argsortAsc (inMemScores st q)).reverse) := by
          rw [List.pairwise_reverse]
          exact (List.sorted_mergeSort htrans htotal
            (List.range (inMemScores st q).length)).imp (fun h => of_decide_eq_true h)
        have htake : List.Pairwise
            (fun i j : ℕ => (inMemScores st q).getD j 0 ≤ (inMemScores st q).getD i 0)
            (((argsortAsc (inMemScores st q)).reverse).take top_k) :=
          List.Pairwise.sublist (List.take_sublist _ _) hsorted
        have hkeep : List.Pairwise
            (fun i j : ℕ => (inMemScores st q).getD j 0 ≤ (inMemScores st q).getD i 0)
            (inMemKeep st filt (((argsortAsc (inMemScores st q)).reverse).take top_k)) := by
          unfold inMemKeep
          exact List.Pairwise.sublist (List.filter_sublist _) htake
        apply List.Pairwise.sublist (List.take_sublist _ _)
        exact List.pairwise_map.mpr hkeep
  · intro reply top_k hpos hasc hlen
    refine ⟨?_, ?_, ?_⟩
    · unfold chromaSearch
      rw [List.length_map]
      exact hlen
    · intro hit hhit
      rcases List.mem_map.mp hhit with ⟨r, hr, rfl⟩
      have h0 : 0 ≤ r.2.1 := hpos r hr
      constructor
      · have hm : min 1 r.2.1 ≤ 1 := min_le_left _ _
        simp only []
        linarith
      · have hm : (0 : ℚ) ≤ min 1 r.2.1 := le_min (by norm_num) h0
        simp only []
        linarith
    · unfold chromaSearch
      apply List.pairwise_map.mpr
      refine hasc.imp ?_
      intro a b hab
      have hm : min (1 : ℚ) a.2.1 ≤ min (1 : ℚ) b.2.1 := min_le_min (le_refl _) hab
      simp only []
      linarith

/-- C6 (witness): on a concrete two-row backend reply the Chroma search model
returns at most two results. -/
theorem vector_search_sorted_topk_witness :
    (chromaSearch [("a", 0, []), ("b", 1, [])]).length ≤ 2 :=
  (vector_search_sorted_topk.2 [("a", 0, []), ("b", 1, [])] 2
    (by decide) (by decide) (by decide)).1

/-! ## C3 — reciprocal rank fusion -/

/-- Updating key `i` adds `inc` to its value. -/
theorem dictVal_updScore_same (m : List (String × ℚ)) (i : String) (inc : ℚ) :
    dictVal (updScore m i inc) i = dictVal m i + inc := by
  induction m with
  | nil =>
      simp [updScore, dictVal, List.find?]
  | cons p rest ih =>
      rcases p with ⟨key, v⟩
      by_cases hk : key = i
      · subst hk
        simp [updScore, dictVal, List.find?_cons]
      · have hd : decide (key = i) = false := by
          simp [hk]
        simp only [updScore, if_neg hk]
        unfold dictVal at ih ⊢
        simp only [List.find?_cons, hd]
        exact ih

/-- Updating key `i` leaves every other key's value unchanged. -/
theorem dictVal_updScore_other (m : List (String × ℚ)) (i j : String) (inc : ℚ)
    (hne : j ≠ i) : dictVal (updScore m i inc) j = dictVal m j := by
  induction m with
  | nil =>
      simp [updScore, dictVal, List.find?, Ne.symm hne]
  | cons p rest ih =>
      rcases p with ⟨key, v⟩
      by_cases hk : key = i
      · subst hk
        have hd : decide (key = j) = false := by
          simp [Ne.symm hne]
        unfold updScore
        rw [if_pos rfl]
        unfold dictVal
        simp only [List.find?_cons, hd]
      · simp only [updScore, if_neg hk]
        unfold dictVal at ih ⊢
        simp only [List.find?_cons]
        by_cases hkj : key = j
        · subst hkj
          simp only [decide_True]
        · have hd : decide (key = j) = false := by
            simp [hkj]
          simp only [hd]
          exact ih

/-- Updating a key either keeps the key sequence (existing key) or appends
the key at the end (fresh key). -/
theorem keys_updScore (m : List (String × ℚ)) (i : String) (inc : ℚ) :
    (updScore m i inc).map Prod.fst =
      if i ∈ m.map Prod.fst then m.map Prod.fst else m.map Prod.fst ++ [i] := by
  induction m with
  | nil =>
      unfold updScore
      simp
  | cons p rest ih =>
      rcases p with ⟨key, v⟩
      by_cases hk : key = i
      · subst hk
        unfold updScore
        rw [if_pos rfl]
        simp
      · unfold updScore
        rw [if_neg hk]
        simp only [List.map_cons, List.mem_cons]
        rw [ih]
        by_cases hmem : i ∈ rest.map Prod.fst
        · rw [if_pos hmem, if_pos (Or.inr hmem)]
        · rw [if_neg hmem, if_neg ?hni]
          · rfl
          case hni =>
            intro hor
            rcases hor with heq | hm
            · exact hk heq.symm
            · exact hmem hm

/-- Processing one enumerated list adds each occurrence's reciprocal-rank
contribution. -/
theorem dictVal_rrfAddList (k : ℚ) (lst : List (String × ℚ)) :
    ∀ (m : List (String × ℚ)) (rank : ℕ) (i : String),
    dictVal (rrfAddList k m rank lst) i = dictVal m i + occSum k rank lst i := by
  induction lst with
  | nil =>
      intro m rank i
      unfold rrfAddList occSum
      ring
  | cons item rest ih =>
      intro m rank i
      unfold rrfAddList occSum
      rw [ih]
      by_cases hit : item.1 = i
      · rw [if_pos hit, hit, dictVal_updScore_same]
        ring
      · rw [if_neg hit, dictVal_updScore_other m item.1 i _ (Ne.symm hit)]
        ring

/-- Key order after processing one list: fold the first-appearance step over
the list's ids. -/
theorem keys_rrfAddList (k : ℚ) (lst : List (String × ℚ)) :
    ∀ (m : List (String × ℚ)) (rank : ℕ),
    (rrfAddList k m rank lst).map Prod.fst =
      (lst.map Prod.fst).foldl
        (fun acc i => if i ∈ acc then acc else acc ++ [i]) (m.map Prod.fst) := by
  induction lst with
  | nil =>
      intro m rank
      rfl
  | cons item rest ih =>
      intro m rank
      unfold rrfAddList
      rw [ih]
      simp only [List.map_cons, List.foldl_cons]
      rw [keys_updScore]

/-- Value of an id after the whole fold: the sum of the per-list occurrence
contributions. -/
theorem dictVal_rrfScores_aux (k : ℚ) (lists : List (List (String × ℚ))) :
    ∀ (m : List (String × ℚ)) (i : String),
    dictVal (lists.foldl (fun m2 lst => rrfAddList k m2 0 lst) m) i =
      dictVal m i + (lists.map (fun l => occSum k 0 l i)).sum := by
  induction lists with
  | nil =>
      intro m i
      simp
  | cons l ls ih =>
      intro m i
      simp only [List.foldl_cons, List.map_cons, List.sum_cons]
      rw [ih, dictVal_rrfAddList]
      ring

/-- The key sequence of the whole score dict is the first-appearance order of
the ids across the input lists. -/
theorem keys_rrfScores (k : ℚ) (lists : List (List (String × ℚ))) :
    (rrfScores k lists).map Prod.fst = firstAppearanceOrder lists := by
  have haux : ∀ (ls : List (List (String × ℚ))) (m : List (String × ℚ)),
      ((ls.foldl (fun m2 lst => rrfAddList k m2 0 lst) m).map Prod.fst) =
        ((ls.map (fun l => l.map Prod.fst)).flatten).foldl
          (fun acc i => if i ∈ acc then acc else acc ++ [i]) (m.map Prod.fst) := by
    intro ls
    induction ls with
    | nil =>
        intro m
        rfl
    | cons l ls2 ih =>
        intro m
        simp only [List.foldl_cons, List.map_cons, List.flatten_cons, List.foldl_append]
        rw [ih, keys_rrfAddList]
  unfold rrfScores firstAppearanceOrder
  exact haux lists []

/-- The first-appearance fold never duplicates a key. -/
theorem nodup_firstAppearance_foldl :
    ∀ (ids : List String) (acc : List String), acc.Nodup →
    (ids.foldl (fun acc2 i => if i ∈ acc2 then acc2 else acc2 ++ [i]) acc).Nodup := by
  intro ids
  induction ids with
  | nil =>
      intro acc h
      exact h
  | cons i rest ih =>
      intro acc h
      simp only [List.foldl_cons]
      by_cases hmem : i ∈ acc
      · rw [if_pos hmem]
        exact ih acc h
      · rw [if_neg hmem]
        apply ih
        rw [List.nodup_append]
        exact ⟨h, List.nodup_singleton _, by
          intro a ha hb
          simp at hb
          exact hmem (hb ▸ ha)⟩

/-- The score dict has pairwise-distinct keys. -/
theorem keys_rrfScores_nodup (k : ℚ) (lists : List (List (String × ℚ))) :
    ((rrfScores k lists).map Prod.fst).Nodup := by
  rw [keys_rrfScores]
  unfold firstAppearanceOrder
  exact nodup_firstAppearance_foldl _ [] List.nodup_nil

/-- An id absent from a list contributes nothing. -/
theorem occSum_notMem (k : ℚ) (lst : List (String × ℚ)) (i : String)
    (h : i ∉ lst.map Prod.fst) : ∀ rank, occSum k rank lst i = 0 := by
  induction lst with
  | nil =>
      intro rank
      rfl
  | cons item rest ih =>
      intro rank
      simp only [List.map_cons, List.mem_cons] at h
      push_neg at h
      unfold occSum
      rw [if_neg (fun he => h.1 he.symm), ih h.2]
      ring

/-- For a list with pairwise-distinct ids the occurrence sum is the single
reciprocal-rank term at the id's index. -/
theorem occSum_nodup (k : ℚ) (lst : List (String × ℚ)) (i : String)
    (hnd : (lst.map Prod.fst).Nodup) : ∀ rank,
    occSum k rank lst i =
      if i ∈ lst.map Prod.fst then
        1 / (k + (rank + (lst.map Prod.fst).indexOf i : ℕ) + 1) else 0 := by
  induction lst with
  | nil =>
      intro rank
      simp [occSum]
  | cons item rest ih =>
      intro rank
      simp only [List.map_cons] at hnd ⊢
      rw [List.nodup_cons] at hnd
      unfold occSum
      by_cases hit : item.1 = i
      · rw [if_pos hit]
        have hnm : i ∉ rest.map Prod.fst := hit ▸ hnd.1
        rw [occSum_notMem k rest i hnm]
        have hmem : i ∈ item.1 :: rest.map Prod.fst := by
          rw [hit]
          exact List.mem_cons_self _ _
        rw [if_pos hmem]
        have hidx : (item.1 :: rest.map Prod.fst).indexOf i = 0 := by
          rw [hit]
          exact List.indexOf_cons_self _ _
        rw [hidx]
        push_cast
        ring
      · rw [if_neg hit]
        rw [ih hnd.2]
        have hidx : (item.1 :: rest.map Prod.fst).indexOf i =
            (rest.map Prod.fst).indexOf i + 1 := by
          rw [List.indexOf_cons_ne]
          exact hit
        by_cases hmem : i ∈ rest.map Prod.fst
        · rw [if_pos hmem, if_pos (List.mem_cons_of_mem _ hmem), hidx]
          push_cast
          ring
        · rw [if_neg hmem, if_neg ?hnm]
          · ring
          case hnm =>
            intro hor
            rcases List.mem_cons.mp hor with heq | hm
            · exact hit heq.symm
            · exact hmem hm

/-- In an association list with distinct keys, a member pair's value is the
dict value of its key. -/
theorem dictVal_of_mem (m : List (String × ℚ)) (hnd : (m.map Prod.fst).Nodup)
    (p : String × ℚ) (hp : p ∈ m) : dictVal m p.1 = p.2 := by
  induction m with
  | nil => cases hp
  | cons q rest ih =>
      simp only [List.map_cons] at hnd
      rw [List.nodup_cons] at hnd
      rcases List.mem_cons.mp hp with heq | hm
      · subst heq
        unfold dictVal
        simp [List.find?_cons]
      · have hne : q.1 ≠ p.1 := by
          intro he
          exact hnd.1 (he ▸ List.mem_map_of_mem Prod.fst hm)
        have hd : decide (q.1 = p.1) = false := by
          simp [hne]
        unfold dictVal at ih ⊢
        simp only [List.find?_cons, hd]
        exact ih hnd.2 hm

/-- C3: RRF fusion assigns every returned id the sum, over the input lists
containing it, of `1/(60 + rank)` with 1-based rank; the returned ids are
exactly the ids of the inputs; the list is sorted by score descending with
ties kept in first-appearance order (the dict order, which equals the
first-appearance order of ids across the inputs); and hybrid search truncates
the fused list to at most `top_k` results. -/
theorem rrf_merge_spec (lists : List (List (String × ℚ)))
    (hnd : ∀ l ∈ lists, (l.map Prod.fst).Nodup) :
    (∀ p ∈ rrf_merge lists DEFAULT_K, p.2 = rrfSpecScore DEFAULT_K lists p.1) ∧
    ((rrfScores DEFAULT_K lists).map Prod.fst = firstAppearanceOrder lists) ∧
    (∀ i : String, i ∈ (rrf_merge lists DEFAULT_K).map Prod.fst ↔
        i ∈ firstAppearanceOrder lists) ∧
    List.Pairwise (fun a b : String × ℚ => b.2 ≤ a.2) (rrf_merge lists DEFAULT_K) ∧
    (∀ p q : String × ℚ, [p, q].Sublist (rrfScores DEFAULT_K lists) → p.2 = q.2 →
        [p, q].Sublist (rrf_merge lists DEFAULT_K)) ∧
    (∀ (kw : List KwRow) (vec : List (String × ℚ)) (resolve : String → Option RowInfo)
        (top_k : ℕ), (hybrid_mode kw vec resolve top_k).length ≤ top_k) := by
  have htrans : ∀ a b c : String × ℚ, decide (b.2 ≤ a.2) = true →
      decide (c.2 ≤ b.2) = true → decide (c.2 ≤ a.2) = true := by
    intro a b c hab hbc
    exact decide_eq_true (le_trans (of_decide_eq_true hbc) (of_decide_eq_true hab))
  have htotal : ∀ a b : String × ℚ,
      (decide (b.2 ≤ a.2) || decide (a.2 ≤ b.2)) = true := by
    intro a b
    simp only [Bool.or_eq_true, decide_eq_true_eq]
    exact le_total _ _
  have hperm : (rrf_merge lists DEFAULT_K).Perm (rrfScores DEFAULT_K lists) :=
    List.mergeSort_perm _ _
  refine ⟨?_, keys_rrfScores _ _, ?_, ?_, ?_, ?_⟩
  · intro p hp
    have hmem : p ∈ rrfScores DEFAULT_K lists := hperm.mem_iff.mp hp
    have hval : dictVal (rrfScores DEFAULT_K lists) p.1 = p.2 :=
      dictVal_of_mem _ (keys_rrfScores_nodup _ _) p hmem
    rw [← hval]
    unfold rrfScores
    rw [dictVal_rrfScores_aux]
    rw [show dictVal [] p.1 = 0 from rfl, zero_add]
    unfold rrfSpecScore
    apply congrArg
    apply List.map_congr_left
    intro l hl
    rw [occSum_nodup DEFAULT_K l p.1 (hnd l hl) 0]
    by_cases hmem2 : p.1 ∈ l.map Prod.fst
    · rw [if_pos hmem2, if_pos hmem2]
      unfold specRank
      push_cast
      ring_nf
    · rw [if_neg hmem2, if_neg hmem2]
  · intro i
    rw [← keys_rrfScores DEFAULT_K lists]
    exact (hperm.map Prod.fst).mem_iff
  · exact (List.sorted_mergeSort htrans htotal
      (rrfScores DEFAULT_K lists)).imp (fun h => of_decide_eq_true h)
  · intro p q hsub hpq
    apply List.sublist_mergeSort htrans htotal
    · refine List.pairwise_cons.mpr ⟨?_, List.pairwise_singleton _ _⟩
      intro b hb
      rw [List.mem_singleton.mp hb]
      exact decide_eq_true (le_of_eq hpq.symm)
    · exact hsub
  · intro kw vec resolve top_k
    unfold hybrid_mode
    by_cases hempty : (kwFusionList kw).isEmpty ∧ vec.isEmpty
    · rw [if_pos hempty]
      simp
    · rw [if_neg hempty]
      refine le_trans (List.length_filterMap_le _ _) ?_
      rw [List.length_take]
      omega

/-- C3 (witness): on the demonstration lists the dict order of the fused
scores is the first-appearance order of the ids. -/
theorem rrf_merge_spec_witness :
    (rrfScores DEFAULT_K demoLists).map Prod.fst = firstAppearanceOrder demoLists :=
  (rrf_merge_spec demoLists (by decide)).2.1

end GeminiSearch
